import Mathlib

/-!
Verification of the stack-map compression core in stackmapcompress.py.

The Python code is shallowly embedded: every Encoder method becomes a pure
function returning the list of bytes it appends (a byte is a Nat below 256),
every Decoder method becomes a function from the remaining buffer to an
optional value paired with the rest of the buffer, and Python exceptions
(ValueError, IndexError, NameError) become the value none.  Python integers
are unbounded, so they are embedded as Int, or as Nat where the source only
ever handles nonnegative values.
-/

/-! ## Byte codec: the Encoder and Decoder classes -/

/-- Encoder.uint8: bytearray.append(i) appends one byte and raises ValueError
when the argument does not fit in a byte. -/
def encUint8 (i : Nat) : Option (List Nat) :=
  if i < 256 then some [i] else none

/-- Encoder.int32: appends [i and 0xFF, (i shr 8) and 0xFF, (i shr 16) and 0xFF,
(i shr 24) and 0xFF].  For a Python int, shr by k is floor division by 2 pow k,
and masking with 0xFF is remainder mod 256; on Int, `/` is Euclidean division,
which for a positive divisor is floor division, and `%` gives the remainder in
[0, 256), exactly as in Python. -/
def encInt32 (i : Int) : List Nat :=
  [(i % 256).toNat, ((i / 256) % 256).toNat,
   ((i / 65536) % 256).toNat, ((i / 16777216) % 256).toNat]

/-- Decoder.int32: reads b[0] + (b[1] shl 8) + (b[2] shl 16) + (b[3] shl 24)
and drops four bytes; accessing a missing byte raises IndexError, hence none
when fewer than four bytes remain. -/
def decInt32 : List Nat → Option (Nat × List Nat)
  | b0 :: b1 :: b2 :: b3 :: rest =>
    some (b0 + (b1 <<< 8) + (b2 <<< 16) + (b3 <<< 24), rest)
  | _ => none

/-- Encoder.bitmap: for i in range((nbits + 7) / 8) append (bits shr (i * 8))
and 0xFF. -/
def encBitmap (bits nbits : Nat) : List Nat :=
  (List.range ((nbits + 7) / 8)).map (fun i => (bits >>> (i * 8)) &&& 0xFF)

/-- The accumulation loop of Decoder.bitmap: bitmap := bitmap or (b[i] shl
(i * 8)).  The nested form below is the same or of shifted bytes, with the
shifts applied cumulatively: b0 or (b1 shl 8) or (b2 shl 16) and so on. -/
def orBytes : List Nat → Nat
  | [] => 0
  | b :: rest => b ||| (orBytes rest <<< 8)

/-- Decoder.bitmap: ors together (nbits + 7) / 8 bytes little endian and drops
them from the buffer; a short buffer raises IndexError, hence none. -/
def decBitmap (nbits : Nat) (buf : List Nat) : Option (Nat × List Nat) :=
  let nbytes := (nbits + 7) / 8
  if nbytes ≤ buf.length then some (orBytes (buf.take nbytes), buf.drop nbytes)
  else none

/-- The loop of Encoder.uvarint on a nonnegative value: while v > 0x7f append
(v and 0x7f) or 0x80 and shift v right by 7; finally append v. -/
def uvarintNat (v : Nat) : List Nat :=
  if v > 0x7f then ((v &&& 0x7f) ||| 0x80) :: uvarintNat (v >>> 7) else [v]
termination_by v
decreasing_by
  simp only [Nat.shiftRight_eq_div_pow]
  omega

/-- Encoder.uvarint: raises ValueError on a negative argument, otherwise runs
the base-128 loop. -/
def encUvarint (v : Int) : Option (List Nat) :=
  if v < 0 then none else some (uvarintNat v.toNat)

/-- The zigzag map of Encoder.svarint: ux = v shl 1, complemented when v is
negative.  On Python ints, v shl 1 is v * 2 and the complement of x is
-x - 1. -/
def zigzag (v : Int) : Int :=
  let ux := v * 2
  if v < 0 then -ux - 1 else ux

/-- Encoder.svarint: uvarint of the zigzag of v. -/
def encSvarint (v : Int) : Option (List Nat) :=
  encUvarint (zigzag v)

/-! ## Arithmetic bridges for the codec -/

theorem orBytes_lt (l : List Nat) (h : ∀ b ∈ l, b < 256) :
    orBytes l < 2 ^ (8 * l.length) := by
  induction l with
  | nil => simp [orBytes]
  | cons b rest ih =>
    have hb : b < 256 := h b (by simp)
    have hr : orBytes rest < 2 ^ (8 * rest.length) := ih (fun x hx => h x (by simp [hx]))
    simp only [orBytes, List.length_cons]
    have h1 : b < 2 ^ (8 * (rest.length + 1)) := by
      calc b < 256 := hb
        _ = 2 ^ 8 := by norm_num
        _ ≤ 2 ^ (8 * (rest.length + 1)) := Nat.pow_le_pow_right (by norm_num) (by omega)
    have h2 : orBytes rest <<< 8 < 2 ^ (8 * (rest.length + 1)) := by
      rw [Nat.shiftLeft_eq]
      calc orBytes rest * 2 ^ 8 < 2 ^ (8 * rest.length) * 2 ^ 8 :=
            (Nat.mul_lt_mul_right (by norm_num)).mpr hr
        _ = 2 ^ (8 * (rest.length + 1)) := by rw [← Nat.pow_add]; ring_nf
    exact Nat.or_lt_two_pow h1 h2

theorem or_shl_eq_add (a b k : Nat) (h : a < 2 ^ k) : a ||| (b <<< k) = a + b * 2 ^ k := by
  rw [Nat.shiftLeft_eq, Nat.or_comm, Nat.mul_comm b (2 ^ k), ← Nat.mul_add_lt_is_or h,
    Nat.add_comm]

theorem encBitmap_bytes_lt (bits nbits : Nat) : ∀ b ∈ encBitmap bits nbits, b < 256 := by
  intro b hb
  simp only [encBitmap, List.mem_map] at hb
  obtain ⟨i, _, rfl⟩ := hb
  have : (bits >>> (i * 8)) &&& 0xFF = (bits >>> (i * 8)) % 256 := by
    have h : (0xFF : Nat) = 2 ^ 8 - 1 := by norm_num
    rw [h, Nat.and_pow_two_sub_one_eq_mod]
  omega

/-- Splitting off the first byte of the Encoder.bitmap loop. -/
theorem encBitmap_range_succ (bits n : Nat) :
    (List.range (n + 1)).map (fun i => (bits >>> (i * 8)) &&& 0xFF)
      = (bits &&& 0xFF) ::
        (List.range n).map (fun i => ((bits >>> 8) >>> (i * 8)) &&& 0xFF) := by
  rw [List.range_succ_eq_map, List.map_cons, List.map_map]
  refine congrArg₂ _ (by norm_num) ?_
  refine List.map_congr_left (fun i _ => ?_)
  simp only [Function.comp]
  rw [show (i + 1) * 8 = 8 + i * 8 by ring, Nat.shiftRight_add]

/-- Reading back the bytes written for a bitmap returns the value reduced mod
2 pow (8 * nbytes). -/
theorem orBytes_encBitmap (bits nbits : Nat) :
    orBytes (encBitmap bits nbits) = bits % 2 ^ (8 * ((nbits + 7) / 8)) := by
  unfold encBitmap
  generalize (nbits + 7) / 8 = n
  induction n generalizing bits with
  | zero =>
    simp [orBytes]
    omega
  | succ m ih =>
    rw [encBitmap_range_succ, orBytes, ih (bits >>> 8)]
    have hmask : bits &&& 0xFF = bits % 256 := Nat.and_pow_two_sub_one_eq_mod bits 8
    have hshift : bits >>> 8 = bits / 256 := Nat.shiftRight_eq_div_pow bits 8
    have hor := or_shl_eq_add (bits % 256) (bits / 256 % 2 ^ (8 * m)) 8 (by omega)
    have hpow : (2 : Nat) ^ (8 * (m + 1)) = 256 * 2 ^ (8 * m) := by
      rw [show 8 * (m + 1) = 8 + 8 * m by ring, Nat.pow_add]
    have hmm : bits % (256 * 2 ^ (8 * m)) = bits % 256 + 256 * (bits / 256 % 2 ^ (8 * m)) :=
      Nat.mod_mul
    rw [hmask, hshift, hor, hpow, hmm]
    ring

theorem encBitmap_length (bits nbits : Nat) :
    (encBitmap bits nbits).length = (nbits + 7) / 8 := by
  simp [encBitmap]

/-- Decoding the bytes just written for a bitmap consumes exactly those bytes
and yields the value mod 2 pow (8 * nbytes). -/
theorem decBitmap_encBitmap (bits nbits : Nat) (rest : List Nat) :
    decBitmap nbits (encBitmap bits nbits ++ rest)
      = some (bits % 2 ^ (8 * ((nbits + 7) / 8)), rest) := by
  have hlen := encBitmap_length bits nbits
  simp only [decBitmap, List.length_append, hlen]
  rw [if_pos (by omega), List.take_left' hlen, List.drop_left' hlen, orBytes_encBitmap]

/-! ## C9: int32 write and read -/

/-- The four little-endian bytes of a nonnegative value below 2 pow 32, as the
claim words them: byte k is (m / 2 pow (8 k)) mod 256. -/
def leBytes4 (m : Nat) : List Nat :=
  [m % 256, m / 256 % 256, m / 65536 % 256, m / 16777216 % 256]

/-- Claim C9: for every integer i, including negative integers and integers at
or above 2 pow 32, Encoder.int32 appends exactly the four little-endian bytes
of i mod 2 pow 32 (a negative value is written as its low 32 two's-complement
bits, not rejected), Decoder.int32 over those bytes returns i mod 2 pow 32,
and the round trip is exact precisely for 0 ≤ i < 2 pow 32. -/
theorem C9_int32_mod_roundtrip (i : Int) (rest : List Nat) :
    encInt32 i = leBytes4 ((i % (2 ^ 32)).toNat) ∧
    decInt32 (encInt32 i ++ rest) = some ((i % (2 ^ 32)).toNat, rest) ∧
    (((i % (2 ^ 32)).toNat : Int) = i ↔ 0 ≤ i ∧ i < 2 ^ 32) := by
  refine ⟨?_, ?_, ?_⟩
  · simp only [encInt32, leBytes4, List.cons.injEq, and_true]
    refine ⟨by omega, by omega, by omega, by omega⟩
  · simp only [encInt32, List.cons_append, List.nil_append, decInt32, Option.some.injEq,
      Prod.mk.injEq, and_true]
    simp only [Nat.shiftLeft_eq]
    norm_num
    omega
  · omega

/-! ## C10: bitmap write and read -/

/-- Claim C10: writeBitmap appends exactly (nbits + 7) / 8 bytes holding
value mod 2 pow (8 * ((nbits + 7) / 8)); a wider value is silently truncated,
so reading the written bytes back recovers the value exactly when it fits in
the written byte span. -/
theorem C10_bitmap_truncates (value nbits : Nat) (rest : List Nat) :
    (encBitmap value nbits).length = (nbits + 7) / 8 ∧
    decBitmap nbits (encBitmap value nbits ++ rest)
      = some (value % 2 ^ (8 * ((nbits + 7) / 8)), rest) ∧
    (value % 2 ^ (8 * ((nbits + 7) / 8)) = value ↔ value < 2 ^ (8 * ((nbits + 7) / 8))) := by
  refine ⟨encBitmap_length value nbits, decBitmap_encBitmap value nbits rest, ?_⟩
  constructor
  · intro h
    rw [← h]
    exact Nat.mod_lt _ (Nat.pos_pow_of_pos _ (by norm_num))
  · exact Nat.mod_eq_of_lt

/-! ## C5: the unused high bits of the last bitmap byte -/

/-- Counterexample to claim C5: reading a 1-bit bitmap from the buffer [2]
returns 2, which is not below 2 pow 1 — the decoder does not mask the unused
high bits of the byte it consumed. -/
theorem C5_counterexample :
    decBitmap 1 [2] = some (2, []) ∧ ¬(2 < 2 ^ 1) := by
  constructor
  · simp [decBitmap, orBytes]
  · decide

/-- Claim C5 as amended: readBitmap(nbits) returns the or of all consumed
bytes, so the result is below 2 pow (8 * ceil(nbits / 8)) but set bits at
positions nbits and above inside the consumed bytes are not masked off and do
appear in the result; writeBitmap(value, nbits) with value below 2 pow nbits
zero-fills the unused high bits, in that the written bytes recombine to value
itself with nothing above bit nbits set. -/
theorem C5_amended (nbits : Nat) (buf : List Nat) (v : Nat) (rest : List Nat) (value : Nat)
    (hbuf : ∀ b ∈ buf, b < 256) :
    (decBitmap nbits buf = some (v, rest) → v < 2 ^ (8 * ((nbits + 7) / 8))) ∧
    (value < 2 ^ nbits →
      decBitmap nbits (encBitmap value nbits ++ rest) = some (value, rest)) := by
  constructor
  · intro h
    simp only [decBitmap] at h
    split at h
    · obtain ⟨rfl, rfl⟩ := Prod.mk.injEq _ _ _ _ ▸ Option.some.injEq _ _ ▸ h
      have htake : ∀ b ∈ buf.take ((nbits + 7) / 8), b < 256 :=
        fun b hb => hbuf b (List.mem_of_mem_take hb)
      have := orBytes_lt _ htake
      have hlen : (buf.take ((nbits + 7) / 8)).length = (nbits + 7) / 8 := by
        rw [List.length_take]
        omega
      rw [hlen] at this
      exact this
    · exact absurd h (by simp)
  · intro hv
    rw [decBitmap_encBitmap]
    have hle : 2 ^ nbits ≤ 2 ^ (8 * ((nbits + 7) / 8)) :=
      Nat.pow_le_pow_right (by norm_num) (by omega)
    rw [Nat.mod_eq_of_lt (by omega)]

/-- Witness for the amended C5 at nbits = 9, buffer [255, 255], value 3. -/
theorem C5_amended_witness :
    decBitmap 9 [255, 255] = some (65535, []) ∧ 65535 < 2 ^ (8 * ((9 + 7) / 8)) ∧
    decBitmap 9 (encBitmap 3 9 ++ []) = some (3, []) := by
  have h := C5_amended 9 [255, 255] 65535 [] 3 (by decide)
  refine ⟨by simp [decBitmap, orBytes], h.1 (by simp [decBitmap, orBytes]), h.2 (by norm_num)⟩

/-! ## C8: uvarint fails exactly on negative input -/

/-- Reassembling the seven payload bits of each varint byte, little endian:
the value carried by a base-128 continuation encoding. -/
def uvarintVal : List Nat → Nat
  | [] => 0
  | b :: rest => (b &&& 0x7f) + (uvarintVal rest <<< 7)

theorem uvarintNat_ne_nil (v : Nat) : uvarintNat v ≠ [] := by
  rw [uvarintNat]
  split <;> simp

theorem uvarintNat_val (v : Nat) : uvarintVal (uvarintNat v) = v := by
  induction v using Nat.strong_induction_on with
  | _ v ih =>
    rw [uvarintNat]
    split
    · rename_i hv
      have hlt : v >>> 7 < v := by
        rw [Nat.shiftRight_eq_div_pow]
        omega
      rw [uvarintVal, ih _ hlt]
      have hmask : v &&& 0x7f = v % 128 := by
        rw [show (0x7f : Nat) = 2 ^ 7 - 1 by norm_num, Nat.and_pow_two_sub_one_eq_mod]
      have hor : (v % 128) ||| 0x80 = v % 128 + 128 := by
        rw [Nat.or_comm, show (0x80 : Nat) = 2 ^ 7 * 1 by norm_num,
          ← Nat.mul_add_lt_is_or (by omega) 1]
        omega
      have houter : (v % 128 + 128) &&& 0x7f = (v % 128 + 128) % 128 := by
        rw [show (0x7f : Nat) = 2 ^ 7 - 1 by norm_num, Nat.and_pow_two_sub_one_eq_mod]
      rw [hmask, hor, houter, Nat.shiftLeft_eq, Nat.shiftRight_eq_div_pow]
      norm_num
      omega
    · rename_i hv
      rw [uvarintVal, uvarintVal, Nat.shiftLeft_eq]
      have hmask : v &&& 0x7f = v % 128 := by
        rw [show (0x7f : Nat) = 2 ^ 7 - 1 by norm_num, Nat.and_pow_two_sub_one_eq_mod]
      rw [hmask]
      omega

theorem uvarintNat_continuation (v : Nat) :
    ∀ b ∈ (uvarintNat v).dropLast, b &&& 0x80 = 0x80 := by
  induction v using Nat.strong_induction_on with
  | _ v ih =>
    rw [uvarintNat]
    split
    · rename_i hv
      have hlt : v >>> 7 < v := by
        rw [Nat.shiftRight_eq_div_pow]
        omega
      intro b hb
      rw [List.dropLast_cons_of_ne_nil (uvarintNat_ne_nil _)] at hb
      rcases List.mem_cons.mp hb with rfl | h
      · rw [Nat.and_distrib_right]
        have h1 : (v &&& 0x7f) &&& 0x80 = 0 := by
          rw [Nat.and_assoc, show (0x7f &&& 0x80 : Nat) = 0 by decide, Nat.and_zero]
        rw [h1]
        decide
      · exact ih _ hlt b h
    · intro b hb
      simp at hb

theorem uvarintNat_last (v : Nat) :
    ∀ b, (uvarintNat v).getLast? = some b → b &&& 0x80 = 0 := by
  induction v using Nat.strong_induction_on with
  | _ v ih =>
    rw [uvarintNat]
    split
    · rename_i hv
      have hlt : v >>> 7 < v := by
        rw [Nat.shiftRight_eq_div_pow]
        omega
      intro b hb
      obtain ⟨x, xs, hx⟩ : ∃ x xs, uvarintNat (v >>> 7) = x :: xs := by
        rcases h : uvarintNat (v >>> 7) with _ | ⟨x, xs⟩
        · exact absurd h (uvarintNat_ne_nil _)
        · exact ⟨x, xs, rfl⟩
      rw [hx, List.getLast?_cons_cons, ← hx] at hb
      exact ih _ hlt b hb
    · rename_i hv
      intro b hb
      simp only [List.getLast?_singleton, Option.some.injEq] at hb
      subst hb
      rw [show (0x80 : Nat) = 2 ^ 7 by norm_num, Nat.and_two_pow,
        Nat.testBit_lt_two_pow (by omega)]
      simp

theorem uvarintNat_bytes_lt (v : Nat) : ∀ b ∈ uvarintNat v, b < 256 := by
  induction v using Nat.strong_induction_on with
  | _ v ih =>
    rw [uvarintNat]
    split
    · rename_i hv
      have hlt : v >>> 7 < v := by
        rw [Nat.shiftRight_eq_div_pow]
        omega
      intro b hb
      rcases List.mem_cons.mp hb with rfl | h
      · have hmask : v &&& 0x7f = v % 128 := by
          rw [show (0x7f : Nat) = 2 ^ 7 - 1 by norm_num, Nat.and_pow_two_sub_one_eq_mod]
        have hor : (v % 128) ||| 0x80 = v % 128 + 128 := by
          rw [Nat.or_comm, show (0x80 : Nat) = 2 ^ 7 * 1 by norm_num,
            ← Nat.mul_add_lt_is_or (by omega) 1]
          omega
        rw [hmask, hor]
        omega
      · exact ih _ hlt b h
    · rename_i hv
      intro b hb
      simp only [List.mem_singleton] at hb
      omega

/-- Claim C8: writeUvarint signals a failure when and only when its input is
negative; for every nonnegative input it succeeds and appends the base-128
continuation encoding: at least one byte, the high continuation bit set on
every byte except the final one, clear on the final one, and the seven
payload bits of the bytes reassembling little endian to the input. -/
theorem C8_uvarint_negative_iff (v : Int) :
    (encUvarint v = none ↔ v < 0) ∧
    (∀ bs, encUvarint v = some bs →
      bs ≠ [] ∧
      (∀ b ∈ bs.dropLast, b &&& 0x80 = 0x80) ∧
      (∀ b, bs.getLast? = some b → b &&& 0x80 = 0) ∧
      uvarintVal bs = v.toNat) := by
  constructor
  · unfold encUvarint
    split <;> simp_all
  · intro bs hbs
    unfold encUvarint at hbs
    split at hbs
    · exact absurd hbs (by simp)
    · obtain rfl := Option.some.injEq _ _ ▸ hbs
      exact ⟨uvarintNat_ne_nil _, uvarintNat_continuation _, uvarintNat_last _,
        uvarintNat_val _⟩

/-- Witness for C8 at v = 300: bytes [0xac, 0x02]. -/
theorem C8_uvarint_witness :
    encUvarint 300 = some [0xac, 2] ∧ ¬((300 : Int) < 0) ∧
    (0xac &&& 0x80 = 0x80) ∧ (2 &&& 0x80 = 0) ∧ uvarintVal [0xac, 2] = 300 := by
  have henc : encUvarint 300 = some [0xac, 2] := by
    rw [encUvarint, if_neg (by norm_num)]
    rw [show ((300 : Int)).toNat = 300 by rfl]
    rw [uvarintNat, if_pos (by decide), show (300 : Nat) >>> 7 = 2 by decide,
      uvarintNat, if_neg (by decide)]
    decide
  have h := (C8_uvarint_negative_iff 300).2 [0xac, 2] henc
  refine ⟨henc, by norm_num, ?_, ?_, h.2.2.2⟩
  · exact h.2.1 0xac (by decide)
  · exact h.2.2.1 2 (by decide)

/-! ## The Stackmap class -/

/-- The bit-length loop at the top of Stackmap.add: nbit, b2 = 0, bitmap;
while b2 is nonzero, count one bit and shift right. -/
def bitLen (b : Nat) : Nat :=
  if b ≠ 0 then 1 + bitLen (b >>> 1) else 0
termination_by b
decreasing_by
  simp only [Nat.shiftRight_eq_div_pow]
  omega

/-- A per-function table of distinct bitmaps at a common width. -/
structure Stackmap where
  nbit : Nat
  bitmaps : List Nat
deriving DecidableEq

/-- Stackmap() without a decoder: width 0, no bitmaps. -/
def Stackmap.empty : Stackmap := { nbit := 0, bitmaps := [] }

/-- Stackmap.add: widen nbit to the bit length of the new bitmap, scan the
existing entries for an equal value and return its index, else append.  The
width is updated even when the bitmap is already present, as in the source. -/
def Stackmap.add (sm : Stackmap) (bitmap : Nat) : Nat × Stackmap :=
  let nbit := max (bitLen bitmap) sm.nbit
  match sm.bitmaps.findIdx? (fun b2 => bitmap == b2) with
  | some i => (i, { sm with nbit := nbit })
  | none => (sm.bitmaps.length, { nbit := nbit, bitmaps := sm.bitmaps ++ [bitmap] })

/-- Tables reachable from Stackmap() by repeated add. -/
inductive Built : Stackmap → Prop where
  | empty : Built Stackmap.empty
  | add (sm : Stackmap) (b : Nat) (h : Built sm) : Built (sm.add b).2

theorem bitLen_bound (b : Nat) : b < 2 ^ bitLen b := by
  induction b using Nat.strong_induction_on with
  | _ b ih =>
    rw [bitLen]
    split
    · rename_i hb
      have hs : b >>> 1 = b / 2 := Nat.shiftRight_eq_div_pow b 1
      have hlt : b >>> 1 < b := by omega
      have ih2 := ih _ hlt
      rw [hs] at ih2 ⊢
      have hp : (2 : Nat) ^ (1 + bitLen (b / 2)) = 2 * 2 ^ bitLen (b / 2) := by
        rw [Nat.pow_add, Nat.pow_one]
      rw [hp]
      omega
    · rename_i hb
      simp at hb
      simp [hb]

theorem Built.bitLen_le {sm : Stackmap} (h : Built sm) :
    ∀ b ∈ sm.bitmaps, bitLen b ≤ sm.nbit := by
  induction h with
  | empty => simp [Stackmap.empty]
  | add sm b hsm ih =>
    intro x hx
    unfold Stackmap.add at hx ⊢
    split at hx <;> rename_i heq <;> simp only at hx ⊢
    · exact le_trans (ih x hx) (le_max_right _ _)
    · rcases List.mem_append.mp hx with hmem | hmem
      · exact le_trans (ih x hmem) (le_max_right _ _)
      · simp only [List.mem_singleton] at hmem
        subst hmem
        exact le_max_left _ _

theorem Built.mem_lt {sm : Stackmap} (h : Built sm) :
    ∀ b ∈ sm.bitmaps, b < 2 ^ sm.nbit := by
  intro b hb
  calc b < 2 ^ bitLen b := bitLen_bound b
    _ ≤ 2 ^ sm.nbit := Nat.pow_le_pow_right (by norm_num) (h.bitLen_le b hb)

/-- The packing loop of the compact layout in Stackmap.encode: combined :=
combined or (b shl (i * nbit)).  As with orBytes, the shifts are applied
cumulatively: b0 or (b1 shl nbit) or (b2 shl (2 * nbit)) and so on. -/
def packBitmaps (nbit : Nat) : List Nat → Nat
  | [] => 0
  | b :: rest => b ||| (packBitmaps nbit rest <<< nbit)

/-- Stackmap.encode: a 4-byte entry count, then either (compact) a 1-byte
width followed by all bitmaps packed into one bitfield of count * width bits,
or (expanded) a 4-byte width followed by each bitmap at width nbit.  The
1-byte width append fails for nbit at or above 256, as bytearray.append
does. -/
def Stackmap.encode (sm : Stackmap) (compact : Bool) : Option (List Nat) :=
  if compact then do
    let w ← encUint8 sm.nbit
    some (encInt32 (sm.bitmaps.length : Int) ++ w ++
      encBitmap (packBitmaps sm.nbit sm.bitmaps) (sm.bitmaps.length * sm.nbit))
  else
    some (encInt32 (sm.bitmaps.length : Int) ++ encInt32 (sm.nbit : Int) ++
      (sm.bitmaps.map (fun b => encBitmap b sm.nbit)).flatten)

/-- The list-comprehension loop of Stackmap.__init__ when decoding: n bitmaps
of nbit bits each. -/
def decBitmaps (n nbit : Nat) (buf : List Nat) : Option (List Nat × List Nat) :=
  match n with
  | 0 => some ([], buf)
  | n + 1 =>
    (decBitmap nbit buf).bind (fun br =>
      (decBitmaps n nbit br.2).bind (fun bsr =>
        some (br.1 :: bsr.1, bsr.2)))

/-- Stackmap.__init__ with a decoder: reads a 4-byte count, a 4-byte width,
then count bitmaps of that width.  This is the only decoding layout in the
source; there is no compact decoder. -/
def Stackmap.decode (buf : List Nat) : Option (Stackmap × List Nat) :=
  (decInt32 buf).bind (fun nr =>
    (decInt32 nr.2).bind (fun wr =>
      (decBitmaps nr.1 wr.1 wr.2).bind (fun br =>
        some ({ nbit := wr.1, bitmaps := br.1 }, br.2))))

/-! ## C1: round trip of the two layouts -/

theorem decInt32_encInt32 (n : Nat) (rest : List Nat) (h : n < 2 ^ 32) :
    decInt32 (encInt32 (n : Int) ++ rest) = some (n, rest) := by
  simp only [encInt32, List.cons_append, List.nil_append, decInt32, Option.some.injEq,
    Prod.mk.injEq, and_true]
  simp only [Nat.shiftLeft_eq]
  norm_num
  omega

theorem decBitmaps_flatten (bs : List Nat) (nbit : Nat) (rest : List Nat)
    (h : ∀ b ∈ bs, b < 2 ^ nbit) :
    decBitmaps bs.length nbit ((bs.map (fun b => encBitmap b nbit)).flatten ++ rest)
      = some (bs, rest) := by
  induction bs with
  | nil => simp [decBitmaps]
  | cons b tl ih =>
    have hb : b < 2 ^ nbit := h b (by simp)
    have hle : 2 ^ nbit ≤ 2 ^ (8 * ((nbit + 7) / 8)) :=
      Nat.pow_le_pow_right (by norm_num) (by omega)
    simp only [List.map_cons, List.flatten_cons, List.length_cons, List.append_assoc]
    rw [decBitmaps, decBitmap_encBitmap, Nat.mod_eq_of_lt (by omega), Option.some_bind]
    simp only
    rw [ih (fun x hx => h x (by simp [hx])), Option.some_bind]

/-- Counterexample to claim C1: the table built by a single add of bitmap 1
encodes under the Compact layout to [1, 0, 0, 0, 1, 1], and decoding those
bytes fails (the decoder, which only understands the Expanded layout, runs
past the end of the buffer), rather than reproducing the table. -/
theorem C1_counterexample :
    (Stackmap.empty.add 1).2.encode true = some [1, 0, 0, 0, 1, 1] ∧
    Stackmap.decode [1, 0, 0, 0, 1, 1] = none := by
  have hadd : Stackmap.empty.add 1 = (0, { nbit := 1, bitmaps := [1] }) := by
    rw [Stackmap.add]
    rw [show bitLen 1 = 1 by rw [bitLen, if_pos (by decide), show (1:Nat) >>> 1 = 0 by decide,
      bitLen, if_neg (by decide)]]
    rfl
  rw [hadd]
  constructor
  · rw [Stackmap.encode]
    decide
  · decide

/-- Claim C1 as amended: for every table built by repeated add whose count and
width fit in 32 bits, decoding the Expanded encoding reproduces the same
count, width and bitmap values in the same order, consuming the whole buffer;
the Compact layout has no decoder in the source (see the counterexample). -/
theorem C1_amended (sm : Stackmap) (h : Built sm)
    (hn : sm.bitmaps.length < 2 ^ 32) (hw : sm.nbit < 2 ^ 32) :
    ∃ bytes, sm.encode false = some bytes ∧ Stackmap.decode bytes = some (sm, []) := by
  obtain ⟨nb, bs⟩ := sm
  simp only at hn hw
  have hmem : ∀ b ∈ bs, b < 2 ^ nb := Built.mem_lt h
  have henc : Stackmap.encode ⟨nb, bs⟩ false
      = some (encInt32 (bs.length : Int) ++ encInt32 (nb : Int) ++
          (bs.map (fun b => encBitmap b nb)).flatten) := by
    rw [Stackmap.encode, if_neg (by decide)]
  refine ⟨_, henc, ?_⟩
  rw [Stackmap.decode]
  simp only [List.append_assoc]
  rw [decInt32_encInt32 _ _ hn, Option.some_bind]
  simp only
  rw [decInt32_encInt32 _ _ hw, Option.some_bind]
  simp only
  rw [show (bs.map (fun b => encBitmap b nb)).flatten
      = (bs.map (fun b => encBitmap b nb)).flatten ++ [] from (List.append_nil _).symm,
    decBitmaps_flatten _ _ _ hmem, Option.some_bind]

/-- Witness for the amended C1 at the table built from adds of 1, 2, 3. -/
theorem C1_amended_witness :
    ∃ bytes, (((Stackmap.empty.add 1).2.add 2).2.add 3).2.encode false = some bytes ∧
      Stackmap.decode bytes = some ((((Stackmap.empty.add 1).2.add 2).2.add 3).2, []) := by
  refine C1_amended _ ?_ ?_ ?_
  · exact Built.add _ 3 (Built.add _ 2 (Built.add _ 1 Built.empty))
  · rw [show (((Stackmap.empty.add 1).2.add 2).2.add 3).2.bitmaps = [1, 2, 3] by
      simp [Stackmap.add, Stackmap.empty, bitLen]]
    decide
  · rw [show (((Stackmap.empty.add 1).2.add 2).2.add 3).2.nbit = 2 by
      simp [Stackmap.add, Stackmap.empty, bitLen]]
    decide

/-! ## C2: sort and the returned permutation -/

/-- Stable insertion into a sorted list: the new element goes in front of the
first element it compares le to, hence behind every earlier equal element. -/
def insSorted (le : α → α → Bool) (x : α) : List α → List α
  | [] => [x]
  | y :: ys => if le x y then x :: y :: ys else y :: insSorted le x ys

/-- Stable insertion sort; extensionally the Python built-in sorted, which is
also a stable comparison sort. -/
def pySorted (le : α → α → Bool) : List α → List α
  | [] => []
  | x :: xs => insSorted le x (pySorted le xs)

/-- The lexicographic order on (bitmap, index) pairs in which Python compares
the tuples that Stackmap.sort builds. -/
def pairLe (p q : Nat × Nat) : Bool :=
  decide (p.1 < q.1) || (p.1 == q.1 && decide (p.2 ≤ q.2))

/-- Stackmap.sort: s = sorted((b, i) for i, b in enumerate(bitmaps)); the
bitmaps are replaced by [b for b, i in s] and [i for b, i in s] is
returned. -/
def Stackmap.sort (sm : Stackmap) : Stackmap × List Nat :=
  let s := pySorted pairLe (sm.bitmaps.enum.map (fun p => (p.2, p.1)))
  ({ sm with bitmaps := s.map Prod.fst }, s.map Prod.snd)

/-- Claim C2 fails on the code: for the table built by adds of 2, 0, 1 the
bitmaps are [2, 0, 1]; sort reorders them to [0, 1, 2] and returns [1, 2, 0],
which maps each new index to its old index.  The claim says the bitmap
formerly at old index i is afterwards found at index perm[i]: the bitmap
formerly at index 0 is 2, yet perm[0] = 1 and the entry now at index 1 is
1, not 2.  The caller likeStackMap nevertheless remaps records with
perm[oldIndex], so a record that referenced bitmap 2 afterwards references
bitmap 1. -/
theorem C2_sort_eval :
    (((Stackmap.empty.add 2).2.add 0).2.add 1).2.bitmaps = [2, 0, 1] ∧
    (((Stackmap.empty.add 2).2.add 0).2.add 1).2.sort
      = ({ nbit := 2, bitmaps := [0, 1, 2] }, [1, 2, 0]) ∧
    [2, 0, 1][0]? = some 2 ∧ [1, 2, 0][0]? = some 1 ∧
    [0, 1, 2][1]? = some 1 ∧ ¬([0, 1, 2][1]? = some 2) := by
  have hb0 : bitLen 0 = 0 := by rw [bitLen, if_neg (by decide)]
  have hb1 : bitLen 1 = 1 := by
    rw [bitLen, if_pos (by decide), show (1 : Nat) >>> 1 = 0 by decide,
      bitLen, if_neg (by decide)]
  have hb2 : bitLen 2 = 2 := by
    rw [bitLen, if_pos (by decide), show (2 : Nat) >>> 1 = 1 by decide,
      bitLen, if_pos (by decide), show (1 : Nat) >>> 1 = 0 by decide,
      bitLen, if_neg (by decide)]
  have e1 : Stackmap.empty.add 2 = (0, { nbit := 2, bitmaps := [2] }) := by
    rw [Stackmap.add, hb2]
    rfl
  have e2 : Stackmap.add { nbit := 2, bitmaps := [2] } 0
      = (1, { nbit := 2, bitmaps := [2, 0] }) := by
    rw [Stackmap.add, hb0]
    rfl
  have e3 : Stackmap.add { nbit := 2, bitmaps := [2, 0] } 1
      = (2, { nbit := 2, bitmaps := [2, 0, 1] }) := by
    rw [Stackmap.add, hb1]
    rfl
  rw [e1, e2, e3]
  refine ⟨rfl, ?_, rfl, rfl, rfl, by decide⟩
  rw [Stackmap.sort]
  rfl

/-! ## The PCData class: the PC-indexed delta and varint byte stream -/

/-- The loop of PCData.encode: for each record, the uvarint of the pc delta
then the svarint of the index delta against the previous record, threading
last through the fold. -/
def pcdataBytes (last : Int × Int) : List (Int × Int) → Option (List Nat)
  | [] => some []
  | e :: tl =>
    (encUvarint (e.1 - last.1)).bind (fun u =>
      (encSvarint (e.2 - last.2)).bind (fun s =>
        (pcdataBytes e tl).bind (fun rest => some (u ++ s ++ rest))))

/-- PCData.encode: the delta and varint stream of the records starting from
(0, 0), followed by the single zero terminator byte from enc.uint8(0). -/
def encodePCData (pcdata : List (Int × Int)) : Option (List Nat) :=
  (pcdataBytes (0, 0) pcdata).bind (fun bs => some (bs ++ [0]))

/-- The same record loop, keeping the bytes of every record in a chunk of its
own: chunk k holds exactly the bytes the k-th loop iteration appends. -/
def recordChunks (last : Int × Int) : List (Int × Int) → Option (List (List Nat))
  | [] => some []
  | e :: tl =>
    (encUvarint (e.1 - last.1)).bind (fun u =>
      (encSvarint (e.2 - last.2)).bind (fun s =>
        (recordChunks e tl).bind (fun rest => some ((u ++ s) :: rest))))

/-- The (pc delta, index delta) pairs the encoder processes, for stating the
scenario of the claim. -/
def pcIdxDeltas (last : Int × Int) : List (Int × Int) → List (Int × Int)
  | [] => []
  | e :: tl => (e.1 - last.1, e.2 - last.2) :: pcIdxDeltas e tl

/-- The pc offsets of a stream are strictly increasing from the given start;
the pc deltas the encoder emits are then all positive. -/
def strictPC (p : Int) : List (Int × Int) → Bool
  | [] => true
  | e :: tl => decide (p < e.1) && strictPC e.1 tl

/-! ## The PC-indexed decoder, modelled from the spec -/

/-- Modelled from the spec: the source has no readUvarint, section 4.1 only
names it; base-128 bytes are read low group first until a byte without the
continuation bit, mirroring writeUvarint. -/
def decUvarint : List Nat → Option (Nat × List Nat)
  | [] => none
  | b :: rest =>
    if b < 0x80 then some (b, rest)
    else (decUvarint rest).bind (fun vr => some ((b &&& 0x7f) + (vr.1 <<< 7), vr.2))

/-- Modelled from the spec: the inverse of the zigzag map, recovering a
signed delta from an unsigned varint payload. -/
def unzigzag (u : Nat) : Int :=
  if u % 2 = 0 then (u / 2 : Nat) else -((u / 2 : Nat) : Int) - 1

/-- Modelled from the spec: the record loop of the PC-indexed decoder, which
the source omits; section 4.4 requires it to reverse the delta arithmetic and
stop at the terminator byte.  A zero byte where a record is expected is the
terminator; otherwise the uvarint pc delta and the svarint index delta are
read and the previous record extended.  Running out of bytes with no
terminator is MalformedInput, hence none.  The fuel bounds the number of
records; every record consumes at least one byte. -/
def goDec : Nat → Int × Int → List Nat → Option (List (Int × Int))
  | 0, _, _ => none
  | _ + 1, _, [] => none
  | _ + 1, _, 0 :: _ => some []
  | fuel + 1, last, (b + 1) :: rest =>
    (decUvarint ((b + 1) :: rest)).bind (fun pr =>
      (decUvarint pr.2).bind (fun ur =>
        (goDec fuel (last.1 + (pr.1 : Int), last.2 + unzigzag ur.1) ur.2).bind (fun tl =>
          some ((last.1 + (pr.1 : Int), last.2 + unzigzag ur.1) :: tl))))

/-- Modelled from the spec: decode a full PC-indexed stream from the start
state (0, 0).  One byte per record plus the terminator makes length + 1 fuel
always sufficient. -/
def decodePCData (bytes : List Nat) : Option (List (Int × Int)) :=
  goDec (bytes.length + 1) (0, 0) bytes

/-! ## Varint and zigzag round-trip lemmas -/

theorem decUvarint_encode (v : Nat) (rest : List Nat) :
    decUvarint (uvarintNat v ++ rest) = some (v, rest) := by
  induction v using Nat.strong_induction_on with
  | _ v ih =>
    rw [uvarintNat]
    split
    · rename_i hv
      have hlt : v >>> 7 < v := by
        rw [Nat.shiftRight_eq_div_pow]
        omega
      have hmask : v &&& 0x7f = v % 128 := Nat.and_pow_two_sub_one_eq_mod v 7
      have hor : (v % 128) ||| 0x80 = v % 128 + 128 := by
        rw [Nat.or_comm, show (0x80 : Nat) = 2 ^ 7 * 1 by norm_num,
          ← Nat.mul_add_lt_is_or (by omega) 1]
        omega
      rw [List.cons_append, decUvarint, hmask, hor, if_neg (by omega), ih _ hlt,
        Option.some_bind]
      have houter : (v % 128 + 128) &&& 0x7f = (v % 128 + 128) % 128 :=
        Nat.and_pow_two_sub_one_eq_mod _ 7
      rw [houter, Nat.shiftLeft_eq, Nat.shiftRight_eq_div_pow]
      norm_num
      omega
    · rename_i hv
      rw [List.cons_append, List.nil_append, decUvarint, if_pos (by omega)]

theorem zigzag_nonneg (v : Int) : 0 ≤ zigzag v := by
  simp only [zigzag]
  split <;> omega

theorem unzigzag_zigzag (v : Int) : unzigzag (zigzag v).toNat = v := by
  simp only [zigzag, unzigzag]
  split
  · rename_i hneg
    split <;> omega
  · rename_i hpos
    split <;> omega

theorem encSvarint_eq (v : Int) :
    encSvarint v = some (uvarintNat (zigzag v).toNat) := by
  rw [encSvarint, encUvarint, if_neg (not_lt.mpr (zigzag_nonneg v))]

theorem uvarintNat_head_pos (v : Nat) (hv : 0 < v) :
    ∃ b t, uvarintNat v = (b + 1) :: t := by
  rw [uvarintNat]
  split
  · rename_i h
    have hmask : v &&& 0x7f = v % 128 := Nat.and_pow_two_sub_one_eq_mod v 7
    have hor : (v % 128) ||| 0x80 = v % 128 + 128 := by
      rw [Nat.or_comm, show (0x80 : Nat) = 2 ^ 7 * 1 by norm_num,
        ← Nat.mul_add_lt_is_or (by omega) 1]
      omega
    rw [hmask, hor]
    exact ⟨v % 128 + 127, _, by rw [show v % 128 + 128 = (v % 128 + 127) + 1 by ring]⟩
  · refine ⟨v - 1, [], ?_⟩
    congr 1
    omega

theorem uvarintNat_small (v : Nat) (h : v ≤ 127) : uvarintNat v = [v] := by
  rw [uvarintNat, if_neg (by omega)]

theorem pcdataBytes_some (stream : List (Int × Int)) :
    ∀ last : Int × Int, strictPC last.1 stream = true →
      ∃ bs, pcdataBytes last stream = some bs := by
  induction stream with
  | nil =>
    intro last _
    exact ⟨[], rfl⟩
  | cons e tl ih =>
    intro last hs
    simp only [strictPC, Bool.and_eq_true, decide_eq_true_eq] at hs
    obtain ⟨hlt, hs2⟩ := hs
    obtain ⟨rest, hrest⟩ := ih e hs2
    refine ⟨uvarintNat (e.1 - last.1).toNat ++ uvarintNat (zigzag (e.2 - last.2)).toNat
      ++ rest, ?_⟩
    rw [pcdataBytes, encUvarint, if_neg (by omega), Option.some_bind, encSvarint_eq,
      Option.some_bind, hrest, Option.some_bind]

theorem pcdataBytes_length_ge (stream : List (Int × Int)) :
    ∀ (last : Int × Int) (bs : List Nat), pcdataBytes last stream = some bs →
      stream.length ≤ bs.length := by
  induction stream with
  | nil =>
    intro last bs h
    simp only [pcdataBytes, Option.some.injEq] at h
    subst h
    simp
  | cons e tl ih =>
    intro last bs h
    rw [pcdataBytes] at h
    obtain ⟨u, hu, h⟩ := Option.bind_eq_some.mp h
    obtain ⟨s, hsv, h⟩ := Option.bind_eq_some.mp h
    obtain ⟨rest, hrest, h⟩ := Option.bind_eq_some.mp h
    obtain rfl := Option.some.inj h
    have hu2 : u ≠ [] := by
      rw [encUvarint] at hu
      split at hu
      · exact absurd hu (by simp)
      · obtain rfl := Option.some.inj hu
        exact uvarintNat_ne_nil _
    have hs2 : s ≠ [] := by
      rw [encSvarint_eq] at hsv
      obtain rfl := Option.some.inj hsv
      exact uvarintNat_ne_nil _
    have := ih e rest hrest
    have hul : 0 < u.length := List.length_pos.mpr hu2
    have hsl : 0 < s.length := List.length_pos.mpr hs2
    simp only [List.length_cons, List.length_append]
    omega

theorem goDec_pcdataBytes (stream : List (Int × Int)) :
    ∀ (last : Int × Int) (bs : List Nat) (fuel : Nat),
      strictPC last.1 stream = true →
      pcdataBytes last stream = some bs →
      stream.length + 1 ≤ fuel →
      goDec fuel last (bs ++ [0]) = some stream := by
  induction stream with
  | nil =>
    intro last bs fuel _ hb hf
    simp only [pcdataBytes, Option.some.injEq] at hb
    subst hb
    obtain ⟨f, rfl⟩ : ∃ f, fuel = f + 1 := ⟨fuel - 1, by omega⟩
    rw [List.nil_append]
    rfl
  | cons e tl ih =>
    intro last bs fuel hs hb hf
    simp only [strictPC, Bool.and_eq_true, decide_eq_true_eq] at hs
    obtain ⟨hlt, hs2⟩ := hs
    rw [pcdataBytes, encUvarint, if_neg (by omega), Option.some_bind, encSvarint_eq,
      Option.some_bind] at hb
    obtain ⟨rest, hrest, h⟩ := Option.bind_eq_some.mp hb
    obtain rfl := Option.some.inj h
    obtain ⟨f, rfl⟩ : ∃ f, fuel = f + 1 := ⟨fuel - 1, by omega⟩
    have hdpos : 0 < (e.1 - last.1).toNat := by omega
    obtain ⟨b, t, hbt⟩ := uvarintNat_head_pos _ hdpos
    have hshape : (uvarintNat (e.1 - last.1).toNat ++ uvarintNat (zigzag (e.2 - last.2)).toNat
        ++ rest) ++ [0]
        = (b + 1) :: (t ++ (uvarintNat (zigzag (e.2 - last.2)).toNat ++ (rest ++ [0]))) := by
      rw [hbt]
      simp [List.append_assoc]
    rw [hshape, goDec, ← List.cons_append, ← hbt, decUvarint_encode, Option.some_bind,
      decUvarint_encode, Option.some_bind]
    have he1 : last.1 + ((e.1 - last.1).toNat : Int) = e.1 := by omega
    have he2 : last.2 + unzigzag (zigzag (e.2 - last.2)).toNat = e.2 := by
      rw [unzigzag_zigzag]
      ring
    rw [he1, he2]
    simp only [List.length_cons] at hf
    have hrec : goDec f (e.1, e.2) (rest ++ [0]) = some tl := by
      have := ih e rest f (by exact hs2) hrest (by omega)
      rw [show ((e.1, e.2) : Int × Int) = e from rfl]
      exact this
    rw [hrec, Option.some_bind]

theorem decodePCData_encodePCData (stream : List (Int × Int))
    (hs : strictPC 0 stream = true) :
    ∃ bytes, encodePCData stream = some bytes ∧ decodePCData bytes = some stream := by
  obtain ⟨bs, hbs⟩ := pcdataBytes_some stream (0, 0) hs
  refine ⟨bs ++ [0], by rw [encodePCData, hbs, Option.some_bind], ?_⟩
  have hlen := pcdataBytes_length_ge stream (0, 0) bs hbs
  rw [decodePCData]
  exact goDec_pcdataBytes stream (0, 0) bs _ hs hbs (by simp; omega)

theorem recordChunks_pcdataBytes (stream : List (Int × Int)) :
    ∀ (last : Int × Int) (chunks : List (List Nat)),
      recordChunks last stream = some chunks →
      pcdataBytes last stream = some chunks.flatten := by
  induction stream with
  | nil =>
    intro last chunks hc
    simp only [recordChunks, Option.some.injEq] at hc
    subst hc
    rfl
  | cons e tl ih =>
    intro last chunks hc
    rw [recordChunks] at hc
    obtain ⟨u, hu, hc⟩ := Option.bind_eq_some.mp hc
    obtain ⟨s, hsv, hc⟩ := Option.bind_eq_some.mp hc
    obtain ⟨rest, hrest, hc⟩ := Option.bind_eq_some.mp hc
    obtain rfl := Option.some.inj hc
    rw [pcdataBytes, hu, Option.some_bind, hsv, Option.some_bind, ih e rest hrest,
      Option.some_bind, List.flatten_cons, List.append_assoc]

theorem recordChunks_heads (stream : List (Int × Int)) :
    ∀ (last : Int × Int) (chunks : List (List Nat)),
      strictPC last.1 stream = true →
      recordChunks last stream = some chunks →
      ∀ c ∈ chunks, ∀ b, c.head? = some b → 0 < b := by
  induction stream with
  | nil =>
    intro last chunks _ hc
    simp only [recordChunks, Option.some.injEq] at hc
    subst hc
    simp
  | cons e tl ih =>
    intro last chunks hs hc
    simp only [strictPC, Bool.and_eq_true, decide_eq_true_eq] at hs
    obtain ⟨hlt, hs2⟩ := hs
    rw [recordChunks, encUvarint, if_neg (by omega), Option.some_bind, encSvarint_eq,
      Option.some_bind] at hc
    obtain ⟨rest, hrest, hc⟩ := Option.bind_eq_some.mp hc
    obtain rfl := Option.some.inj hc
    intro c hcmem b hb
    rcases List.mem_cons.mp hcmem with rfl | hmem
    · have hdpos : 0 < (e.1 - last.1).toNat := by omega
      obtain ⟨b0, t, hbt⟩ := uvarintNat_head_pos _ hdpos
      rw [hbt, List.cons_append, List.head?_cons, Option.some.injEq] at hb
      omega
    · exact ih e rest hs2 hrest c hmem b hb

/-- Counterexample to claim C4: for the stream with the single record (0, 0)
— a zero pc delta, as the spec explicitly allows for ties — the bytes of the
record are [0, 0], so the byte that begins the encoding of a real record is a
bare zero byte, indistinguishable from the terminator; the whole emitted
stream is [0, 0, 0]. -/
theorem C4_counterexample :
    recordChunks (0, 0) [((0 : Int), (0 : Int))] = some [[0, 0]] ∧
    encodePCData [((0 : Int), (0 : Int))] = some [0, 0, 0] ∧
    ([0, 0] : List Nat).head? = some 0 := by
  have h0 : encUvarint (0 - 0) = some [0] := by
    rw [encUvarint, if_neg (by norm_num)]
    rw [show ((0 - 0 : Int)).toNat = 0 from rfl, uvarintNat_small 0 (by norm_num)]
  have hz : encSvarint (0 - 0) = some [0] := by
    rw [encSvarint_eq, show zigzag (0 - 0) = 0 from by simp [zigzag]]
    rw [show ((0 : Int)).toNat = 0 from rfl, uvarintNat_small 0 (by norm_num)]
  refine ⟨?_, ?_, rfl⟩
  · rw [recordChunks, h0, Option.some_bind, hz, Option.some_bind, recordChunks,
      Option.some_bind]
    rfl
  · rw [encodePCData, pcdataBytes, h0, Option.some_bind, hz, Option.some_bind,
      pcdataBytes, Option.some_bind, Option.some_bind]
    rfl

/-- Claim C4 as amended: a record whose pc delta is zero begins with a bare
zero byte (see the counterexample), so the terminator is ambiguous exactly at
ties; for every stream whose pc offsets are strictly increasing from above 0,
every emitted pc delta is positive and no byte that begins the encoding of a
record is a zero byte, so the zero terminator cannot be mistaken for a record
there. -/
theorem C4_amended (stream : List (Int × Int)) (chunks : List (List Nat))
    (hs : strictPC 0 stream = true) (hc : recordChunks (0, 0) stream = some chunks) :
    encodePCData stream = some (chunks.flatten ++ [0]) ∧
    ∀ c ∈ chunks, ∀ b, c.head? = some b → 0 < b := by
  refine ⟨?_, recordChunks_heads stream (0, 0) chunks hs hc⟩
  rw [encodePCData, recordChunks_pcdataBytes stream (0, 0) chunks hc, Option.some_bind]

/-- Witness for the amended C4 at the stream [(1, 0), (3, 2)]. -/
theorem C4_amended_witness :
    strictPC 0 [((1 : Int), (0 : Int)), (3, 2)] = true ∧
    recordChunks (0, 0) [((1 : Int), (0 : Int)), (3, 2)] = some [[1, 0], [2, 4]] ∧
    encodePCData [((1 : Int), (0 : Int)), (3, 2)] = some ([1, 0, 2, 4] ++ [0]) ∧
    ∀ c ∈ ([[1, 0], [2, 4]] : List (List Nat)), ∀ b, c.head? = some b → 0 < b := by
  have hs : strictPC 0 [((1 : Int), (0 : Int)), (3, 2)] = true := by decide
  have hu1 : encUvarint (1 - 0) = some [1] := by
    rw [encUvarint, if_neg (by norm_num)]
    rw [show ((1 - 0 : Int)).toNat = 1 from rfl, uvarintNat_small 1 (by norm_num)]
  have hs1 : encSvarint (0 - 0) = some [0] := by
    rw [encSvarint_eq, show zigzag (0 - 0) = 0 from by simp [zigzag]]
    rw [show ((0 : Int)).toNat = 0 from rfl, uvarintNat_small 0 (by norm_num)]
  have hu2 : encUvarint (3 - 1) = some [2] := by
    rw [encUvarint, if_neg (by norm_num)]
    rw [show ((3 - 1 : Int)).toNat = 2 from rfl, uvarintNat_small 2 (by norm_num)]
  have hs2 : encSvarint (2 - 0) = some [4] := by
    rw [encSvarint_eq, show zigzag (2 - 0) = 4 from by simp [zigzag]]
    rw [show ((4 : Int)).toNat = 4 from rfl, uvarintNat_small 4 (by norm_num)]
  have hc : recordChunks (0, 0) [((1 : Int), (0 : Int)), (3, 2)] = some [[1, 0], [2, 4]] := by
    rw [recordChunks, hu1, Option.some_bind, hs1, Option.some_bind, recordChunks, hu2,
      Option.some_bind, hs2, Option.some_bind, recordChunks, Option.some_bind,
      Option.some_bind]
    rfl
  have h := C4_amended [((1 : Int), (0 : Int)), (3, 2)] [[1, 0], [2, 4]] hs hc
  exact ⟨hs, hc, h.1, h.2⟩


/-- Helper for concrete varint evaluations: a one-byte unsigned varint. -/
theorem encUvarint_small (d : Int) (h1 : 0 ≤ d) (h2 : d ≤ 127) :
    encUvarint d = some [d.toNat] := by
  rw [encUvarint, if_neg (by omega), uvarintNat_small _ (by omega)]

/-- Helper for concrete varint evaluations: a one-byte signed varint. -/
theorem encSvarint_small (v : Int) (h1 : -64 ≤ v) (h2 : v ≤ 63) :
    encSvarint v = some [(zigzag v).toNat] := by
  have hz : 0 ≤ zigzag v ∧ zigzag v ≤ 127 := by
    simp only [zigzag]
    split <;> omega
  rw [encSvarint_eq, uvarintNat_small _ (by omega)]

/-- The concrete byte stream of scenario C. -/
theorem scenarioC_bytes :
    encodePCData [((0 : Int), (0 : Int)), (5, 1), (5, 1), (12, 0)]
      = some [0, 0, 5, 2, 0, 0, 7, 1, 0] := by
  have u1 := encUvarint_small (0 - 0) (by norm_num) (by norm_num)
  have s1 := encSvarint_small (0 - 0) (by norm_num) (by norm_num)
  have u2 := encUvarint_small (5 - 0) (by norm_num) (by norm_num)
  have s2 := encSvarint_small (1 - 0) (by norm_num) (by norm_num)
  have u3 := encUvarint_small (5 - 5) (by norm_num) (by norm_num)
  have s3 := encSvarint_small (1 - 1) (by norm_num) (by norm_num)
  have u4 := encUvarint_small (12 - 5) (by norm_num) (by norm_num)
  have s4 := encSvarint_small (0 - 1) (by norm_num) (by norm_num)
  rw [encodePCData, pcdataBytes, u1, Option.some_bind, s1, Option.some_bind,
    pcdataBytes, u2, Option.some_bind, s2, Option.some_bind,
    pcdataBytes, u3, Option.some_bind, s3, Option.some_bind,
    pcdataBytes, u4, Option.some_bind, s4, Option.some_bind,
    pcdataBytes, Option.some_bind, Option.some_bind]
  rfl

/-- Counterexample to claim C6: the stream [(0, 0), (5, 1), (5, 1), (12, 0)]
does encode to the claimed delta bytes terminated by a zero byte, but the
spec-modelled terminator decoder, reading those bytes back, stops at the very
first byte — the first record has pc delta 0 and so begins with a zero byte,
the terminator value — and returns the empty stream, not the original four
records. -/
theorem C6_counterexample :
    encodePCData [((0 : Int), (0 : Int)), (5, 1), (5, 1), (12, 0)]
      = some [0, 0, 5, 2, 0, 0, 7, 1, 0] ∧
    decodePCData [0, 0, 5, 2, 0, 0, 7, 1, 0] = some [] ∧
    ([] : List (Int × Int)) ≠ [((0 : Int), (0 : Int)), (5, 1), (5, 1), (12, 0)] := by
  refine ⟨scenarioC_bytes, ?_, by decide⟩
  rfl

/-- Claim C6 as amended: the encoder does emit, for each record in order, the
unsigned varint of the pc delta then the zigzag varint of the index delta
from (0, 0), then one zero terminator byte, and scenario C yields exactly the
deltas (0,0), (5,1), (0,0), (7,-1) and bytes [0,0,5,2,0,0,7,1,0]; but the
terminator decoder reproduces the records only for streams with strictly
increasing pc offsets (every pc delta positive) — for scenario C itself it
stops at the leading zero byte (see the counterexample). -/
theorem C6_pc_codec_amended :
    pcIdxDeltas (0, 0) [((0 : Int), (0 : Int)), (5, 1), (5, 1), (12, 0)]
      = [(0, 0), (5, 1), (0, 0), (7, -1)] ∧
    encodePCData [((0 : Int), (0 : Int)), (5, 1), (5, 1), (12, 0)]
      = some [0, 0, 5, 2, 0, 0, 7, 1, 0] ∧
    ∀ stream : List (Int × Int), strictPC 0 stream = true →
      ∃ bytes, encodePCData stream = some bytes ∧ decodePCData bytes = some stream := by
  refine ⟨by decide, scenarioC_bytes, decodePCData_encodePCData⟩

/-- Witness for the amended C6 at the strictly increasing stream
[(1, 0), (3, 2)]. -/
theorem C6_amended_witness :
    strictPC 0 [((1 : Int), (0 : Int)), (3, 2)] = true ∧
    ∃ bytes, encodePCData [((1 : Int), (0 : Int)), (3, 2)] = some bytes ∧
      decodePCData bytes = some [((1 : Int), (0 : Int)), (3, 2)] :=
  ⟨by decide, C6_pc_codec_amended.2.2 [((1 : Int), (0 : Int)), (3, 2)] (by decide)⟩

/-! ## filterLiveToDead -/

/-- Python bitmap and not prevBitmap for nonnegative ints: the bits of b that
are not set in p.  Nat has no complement, so it is written b xor (b and p):
removing from b the part of b that lies inside p. -/
def andNot (b p : Nat) : Nat := b ^^^ (b &&& p)

/-- The loop of filterLiveToDead over one stream of (pc, bitmap) records,
where bitmap none is the sentinel dead record.  The sentinel branch of the
source appends to newRegIdx, a name defined nowhere, so a stream containing a
sentinel raises NameError, hence none.  For a bitmap record the condition
bitmap and not prevBitmap != 0 decides keeping, and prevBitmap is set to the
bitmap of every record, kept or dropped. -/
def filterLTD (prev : Nat) : List (Nat × Option Nat) → Option (List (Nat × Option Nat))
  | [] => some []
  | (_, none) :: _ => none
  | (pc, some b) :: tl =>
    if andNot b prev ≠ 0 then
      (filterLTD b tl).bind (fun out => some ((pc, some b) :: out))
    else filterLTD b tl

/-- Counterexample to claim C3: on [(0,0b011),(1,0b001),(2,0b010)] the code
keeps (2, 0b010) although its bits are a subset of the previous KEPT bitmap
0b011 (andNot 2 3 = 0) — the code compares against the immediately preceding
record, kept or dropped, not against the preceding kept record as the claim
says. -/
theorem C3_counterexample :
    filterLTD 0 [(0, some 3), (1, some 1), (2, some 2)]
      = some [(0, some 3), (2, some 2)] ∧ andNot 2 3 = 0 := by
  constructor
  · rfl
  · decide

/-- Claim C3 as amended: the scenario of the claim does hold; in general, for
a sentinel-free stream, filterLiveToDead keeps exactly the records whose
bitmap has a bit not set in the bitmap of the immediately preceding record —
kept or dropped, starting from 0 — and a stream containing a sentinel dead
record is not preserved: the sentinel branch references an undefined name and
fails. -/
theorem C3_filter_amended :
    (filterLTD 0 [(0, some 1), (4, some 3), (8, some 2)]
      = some [(0, some 1), (4, some 3)]) ∧
    (∀ (stream : List (Nat × Nat)) (prev : Nat),
      filterLTD prev (stream.map (fun e => (e.1, some e.2)))
        = some (((stream.zip (prev :: stream.map Prod.snd)).filter
            (fun p => decide (andNot p.1.2 p.2 ≠ 0))).map (fun p => (p.1.1, some p.1.2)))) ∧
    (∀ (l : List (Nat × Option Nat)) (prev : Nat),
      (∃ e ∈ l, e.2 = none) → filterLTD prev l = none) := by
  refine ⟨by rfl, ?_, ?_⟩
  · intro stream
    induction stream with
    | nil =>
      intro prev
      rfl
    | cons e tl ih =>
      intro prev
      simp only [List.map_cons, List.zip_cons_cons, List.filter_cons]
      by_cases hcond : andNot e.2 prev ≠ 0
      · rw [filterLTD, if_pos hcond, ih e.2, Option.some_bind]
        simp [hcond]
      · rw [filterLTD, if_neg hcond, ih e.2]
        simp [hcond]
  · intro l
    induction l with
    | nil =>
      intro prev h
      simp at h
    | cons e tl ih =>
      intro prev h
      obtain ⟨pc, ob⟩ := e
      cases ob with
      | none => rfl
      | some b =>
        have htl : ∃ x ∈ tl, x.2 = none := by
          obtain ⟨x, hx, hx2⟩ := h
          rcases List.mem_cons.mp hx with rfl | hmem
          · exact absurd hx2 (by simp)
          · exact ⟨x, hmem, hx2⟩
        rw [filterLTD]
        split
        · rw [ih b htl]
          rfl
        · exact ih b htl

/-- Witness for the amended C3: the sentinel part at the one-sentinel stream
[(5, none)], plus the general characterization at [(0, 3), (1, 1), (2, 2)]. -/
theorem C3_amended_witness :
    filterLTD 7 [(5, (none : Option Nat))] = none ∧
    filterLTD 0 ([((0 : Nat), (3 : Nat)), (1, 1), (2, 2)].map (fun e => (e.1, some e.2)))
      = some ((([((0 : Nat), (3 : Nat)), (1, 1), (2, 2)].zip
          (0 :: [((0 : Nat), (3 : Nat)), (1, 1), (2, 2)].map Prod.snd)).filter
            (fun p => decide (andNot p.1.2 p.2 ≠ 0))).map (fun p => (p.1.1, some p.1.2))) :=
  ⟨C3_filter_amended.2.2 [(5, none)] 7 ⟨(5, none), by simp, rfl⟩,
   C3_filter_amended.2.1 [((0 : Nat), (3 : Nat)), (1, 1), (2, 2)] 0⟩

/-! ## The generalized Huffman builder -/

/-- The duck-typed tree nodes of huffman: a payload is either a symbol (a
leaf) or the list of child payloads (an internal node). -/
inductive HTree where
  | leaf (v : Int)
  | node (cs : List HTree)

/-- The sort key of the while loop: code.sort(key weight, reverse) is a
stable sort in which a precedes b when the weight of a is at least the
weight of b. -/
def wGe (a b : Nat × HTree) : Bool := decide (b.1 ≤ a.1)

/-- One pass of the while loop of huffman: sort descending by weight; with
fewer than radix nodes left, all of them become children of a single new
node; otherwise the radix lowest-weight nodes — the tail of the descending
sort — do, and the new node is appended after the remaining head. -/
def huffStep (radix : Nat) (code : List (Nat × HTree)) : List (Nat × HTree) :=
  let sorted := pySorted wGe code
  if sorted.length < radix then
    [((sorted.map Prod.fst).sum, HTree.node (sorted.map Prod.snd))]
  else
    sorted.take (sorted.length - radix)
      ++ [(((sorted.drop (sorted.length - radix)).map Prod.fst).sum,
           HTree.node ((sorted.drop (sorted.length - radix)).map Prod.snd))]

/-- The while loop of huffman, with fuel standing in for the loop guard:
every iteration with radix at least 2 shrinks the list, so fuel equal to the
initial length is enough; with radix 1 and two or more nodes the Python loop
never terminates, and the fuel runs out to none. -/
def huffLoop : Nat → Nat → List (Nat × HTree) → Option (List (Nat × HTree))
  | 0, _, code => if code.length ≤ 1 then some code else none
  | fuel + 1, radix, code =>
    if code.length ≤ 1 then some code else huffLoop fuel radix (huffStep radix code)

mutual
/-- mktree of huffman: a leaf stores its accumulated (codeword, bits); an
internal node hands child i the codeword extended by i in streamAlign new low
bits.  The dict is represented as the association list of entries in
traversal order. -/
def mktree (sa : Nat) : HTree → Nat → Nat → List (Int × Nat × Nat)
  | .leaf v, cw, bits => [(v, cw, bits)]
  | .node cs, cw, bits => mktreeL sa cs 0 cw bits
/-- The enumerate loop inside mktree, carrying the child position i. -/
def mktreeL (sa : Nat) : List HTree → Nat → Nat → Nat → List (Int × Nat × Nat)
  | [], _, _, _ => []
  | c :: rest, i, cw, bits =>
    mktree sa c ((cw <<< sa) + i) (bits + sa) ++ mktreeL sa rest (i + 1) cw bits
end

/-- huffman(counts, streamAlign): one (count, leaf) node per symbol, the
merge loop with radix 2 pow streamAlign, then codeword assignment from the
root with codeword 0 and 0 bits.  An empty frequency table makes code[0] an
IndexError, hence none. -/
def huffman (counts : List (Int × Nat)) (streamAlign : Nat) :
    Option (List (Int × Nat × Nat)) :=
  let code := counts.map (fun p => (p.2, HTree.leaf p.1))
  match huffLoop code.length (2 ^ streamAlign) code with
  | none => none
  | some [] => none
  | some ((_, t) :: _) => some (mktree streamAlign t 0 0)

/-- Trees all of whose internal nodes have at most 2 pow sa children — the
shape invariant the merge loop maintains, and what makes codeword extension
by a child index injective. -/
inductive GoodTree (sa : Nat) : HTree → Prop where
  | leaf (v : Int) : GoodTree sa (.leaf v)
  | node (cs : List HTree) (hlen : cs.length ≤ 2 ^ sa)
      (hcs : ∀ c ∈ cs, GoodTree sa c) : GoodTree sa (.node cs)

theorem insSorted_mem (le : α → α → Bool) (x : α) (l : List α) (y : α) :
    y ∈ insSorted le x l ↔ y = x ∨ y ∈ l := by
  induction l with
  | nil => simp [insSorted]
  | cons z zs ih =>
    rw [insSorted]
    split
    · simp
    · simp only [List.mem_cons, ih]
      tauto

theorem pySorted_mem (le : α → α → Bool) (l : List α) (y : α) :
    y ∈ pySorted le l ↔ y ∈ l := by
  induction l with
  | nil => simp [pySorted]
  | cons x xs ih =>
    rw [pySorted, insSorted_mem]
    simp [ih]

theorem huffStep_good (sa radix : Nat) (hradix : radix ≤ 2 ^ sa)
    (code : List (Nat × HTree)) (h : ∀ p ∈ code, GoodTree sa p.2) :
    ∀ p ∈ huffStep radix code, GoodTree sa p.2 := by
  intro p hp
  have hsortmem : ∀ q ∈ pySorted wGe code, GoodTree sa q.2 :=
    fun q hq => h q ((pySorted_mem wGe code q).mp hq)
  rw [huffStep] at hp
  split at hp
  · rename_i hlt
    simp only [List.mem_singleton] at hp
    subst hp
    refine GoodTree.node _ (by simp only [List.length_map]; omega) ?_
    intro c hc
    obtain ⟨q, hq, rfl⟩ := List.mem_map.mp hc
    exact hsortmem q hq
  · rename_i hge
    rcases List.mem_append.mp hp with hmem | hmem
    · exact hsortmem p (List.mem_of_mem_take hmem)
    · simp only [List.mem_singleton] at hmem
      subst hmem
      refine GoodTree.node _ ?_ ?_
      · simp only [List.length_map, List.length_drop]
        omega
      · intro c hc
        obtain ⟨q, hq, rfl⟩ := List.mem_map.mp hc
        exact hsortmem q (List.mem_of_mem_drop hq)

theorem huffLoop_good (sa : Nat) : ∀ (fuel radix : Nat), radix ≤ 2 ^ sa →
    ∀ (code res : List (Nat × HTree)), (∀ p ∈ code, GoodTree sa p.2) →
      huffLoop fuel radix code = some res → ∀ p ∈ res, GoodTree sa p.2 := by
  intro fuel
  induction fuel with
  | zero =>
    intro radix hradix code res hcode hl
    rw [huffLoop] at hl
    split at hl
    · obtain rfl := Option.some.inj hl
      exact hcode
    · exact absurd hl (by simp)
  | succ f ih =>
    intro radix hradix code res hcode hl
    rw [huffLoop] at hl
    split at hl
    · obtain rfl := Option.some.inj hl
      exact hcode
    · exact ih radix hradix _ res (huffStep_good sa radix hradix code hcode) hl

/-- Entry (c1, n1) read at its n1 bits is a bit-prefix of entry (c2, n2):
it is no longer, and shifting c2 down by the length difference gives c1. -/
def bitPre (c1 n1 c2 n2 : Nat) : Prop := n1 ≤ n2 ∧ c2 >>> (n2 - n1) = c1

/-- Neither of two code table entries is a bit-prefix of the other. -/
def npRel (e1 e2 : Int × Nat × Nat) : Prop :=
  ¬bitPre e1.2.1 e1.2.2 e2.2.1 e2.2.2 ∧ ¬bitPre e2.2.1 e2.2.2 e1.2.1 e1.2.2

theorem npRel_symm : Symmetric npRel := fun _ _ h => ⟨h.2, h.1⟩

/-- Dropping sa low bits of a codeword extended by a child index below
2 pow sa recovers the parent codeword. -/
theorem shl_add_shr (cw i sa : Nat) (h : i < 2 ^ sa) : ((cw <<< sa) + i) >>> sa = cw := by
  rw [Nat.shiftLeft_eq, Nat.shiftRight_eq_div_pow, Nat.mul_comm,
    Nat.mul_add_div (Nat.pos_pow_of_pos sa (by norm_num)), Nat.div_eq_of_lt h]
  omega

/-- Two entries extending distinct prefixes of one common length are not
bit-prefixes of one another (one direction). -/
theorem no_pre_of_distinct (c1 n1 c2 n2 B p1 p2 : Nat)
    (h1b : B ≤ n1) (h1 : c1 >>> (n1 - B) = p1)
    (h2b : B ≤ n2) (h2 : c2 >>> (n2 - B) = p2)
    (hne : p1 ≠ p2) : ¬bitPre c1 n1 c2 n2 := by
  rintro ⟨hle, heq⟩
  apply hne
  calc p1 = c1 >>> (n1 - B) := h1.symm
    _ = (c2 >>> (n2 - n1)) >>> (n1 - B) := by rw [heq]
    _ = c2 >>> ((n2 - n1) + (n1 - B)) := (Nat.shiftRight_add c2 _ _).symm
    _ = c2 >>> (n2 - B) := by rw [show (n2 - n1) + (n1 - B) = n2 - B by omega]
    _ = p2 := h2

theorem npRel_of_distinct (e1 e2 : Int × Nat × Nat) (B p1 p2 : Nat)
    (h1b : B ≤ e1.2.2) (h1 : e1.2.1 >>> (e1.2.2 - B) = p1)
    (h2b : B ≤ e2.2.2) (h2 : e2.2.1 >>> (e2.2.2 - B) = p2)
    (hne : p1 ≠ p2) : npRel e1 e2 :=
  ⟨no_pre_of_distinct _ _ _ _ B p1 p2 h1b h1 h2b h2 hne,
   no_pre_of_distinct _ _ _ _ B p2 p1 h2b h2 h1b h1 (Ne.symm hne)⟩

/-- Every entry produced under a child of the enumerate loop extends the
parent codeword by the index of that child, which is at least the starting
index. -/
theorem mktreeL_ext_idx (sa : Nat) (l : List HTree) :
    ∀ (i cw bits : Nat),
      (∀ c ∈ l, ∀ cw2 bits2 e, e ∈ mktree sa c cw2 bits2 →
        bits2 ≤ e.2.2 ∧ e.2.1 >>> (e.2.2 - bits2) = cw2) →
      ∀ e ∈ mktreeL sa l i cw bits,
        ∃ j, i ≤ j ∧ j < i + l.length ∧ bits + sa ≤ e.2.2 ∧
          e.2.1 >>> (e.2.2 - (bits + sa)) = (cw <<< sa) + j := by
  induction l with
  | nil =>
    intro i cw bits _ e he
    simp [mktreeL] at he
  | cons c rest ih =>
    intro i cw bits hext e he
    rw [mktreeL] at he
    rcases List.mem_append.mp he with hmem | hmem
    · obtain ⟨hb, hc⟩ := hext c (by simp) ((cw <<< sa) + i) (bits + sa) e hmem
      exact ⟨i, le_refl i, by simp only [List.length_cons]; omega, hb, hc⟩
    · obtain ⟨j, hj1, hj2, hj3, hj4⟩ :=
        ih (i + 1) cw bits (fun c2 hc2 => hext c2 (by simp [hc2])) e hmem
      exact ⟨j, by omega, by simp only [List.length_cons]; omega, hj3, hj4⟩

/-- Every entry produced under a good tree extends the codeword the tree was
entered with. -/
theorem mktree_ext (sa : Nat) {t : HTree} (h : GoodTree sa t) :
    ∀ cw bits e, e ∈ mktree sa t cw bits →
      bits ≤ e.2.2 ∧ e.2.1 >>> (e.2.2 - bits) = cw := by
  induction h with
  | leaf v =>
    intro cw bits e he
    rw [mktree] at he
    simp only [List.mem_singleton] at he
    subst he
    exact ⟨le_refl bits, by simp⟩
  | node cs hlen hcs ih =>
    intro cw bits e he
    rw [mktree] at he
    obtain ⟨j, hj1, hj2, hj3, hj4⟩ :=
      mktreeL_ext_idx sa cs 0 cw bits (fun c hc cw2 bits2 e2 he2 => ih c hc cw2 bits2 e2 he2)
        e he
    have hjlt : j < 2 ^ sa := by omega
    refine ⟨by omega, ?_⟩
    calc e.2.1 >>> (e.2.2 - bits) = e.2.1 >>> ((e.2.2 - (bits + sa)) + sa) := by
          rw [show (e.2.2 - (bits + sa)) + sa = e.2.2 - bits by omega]
      _ = (e.2.1 >>> (e.2.2 - (bits + sa))) >>> sa := Nat.shiftRight_add _ _ _
      _ = ((cw <<< sa) + j) >>> sa := by rw [hj4]
      _ = cw := shl_add_shr cw j sa hjlt

/-- The entries of the enumerate loop over good children are pairwise
non-prefix: entries under one child by induction, entries under different
children because they extend distinct sibling prefixes. -/
theorem mktreeL_pairwise (sa : Nat) (l : List HTree) :
    ∀ (i cw bits : Nat),
      (∀ c ∈ l, GoodTree sa c) →
      (∀ c ∈ l, ∀ cw2 bits2, (mktree sa c cw2 bits2).Pairwise npRel) →
      (mktreeL sa l i cw bits).Pairwise npRel := by
  induction l with
  | nil =>
    intro i cw bits _ _
    simp [mktreeL]
  | cons c rest ih =>
    intro i cw bits hgood hpw
    rw [mktreeL]
    refine List.pairwise_append.mpr ⟨hpw c (by simp) _ _,
      ih (i + 1) cw bits (fun x hx => hgood x (by simp [hx]))
        (fun x hx => hpw x (by simp [hx])), ?_⟩
    intro a ha b hb
    have hA := mktree_ext sa (hgood c (by simp)) ((cw <<< sa) + i) (bits + sa) a ha
    obtain ⟨j, hj1, _, hj3, hj4⟩ := mktreeL_ext_idx sa rest (i + 1) cw bits
      (fun x hx cw2 bits2 e2 he2 =>
        mktree_ext sa (hgood x (by simp [hx])) cw2 bits2 e2 he2) b hb
    exact npRel_of_distinct a b (bits + sa) ((cw <<< sa) + i) ((cw <<< sa) + j)
      hA.1 hA.2 hj3 hj4 (by omega)

/-- The full code table of a good tree is pairwise non-prefix. -/
theorem mktree_pairwise (sa : Nat) {t : HTree} (h : GoodTree sa t) :
    ∀ cw bits, (mktree sa t cw bits).Pairwise npRel := by
  induction h with
  | leaf v =>
    intro cw bits
    rw [mktree]
    exact List.pairwise_singleton _ _
  | node cs hlen hcs ih =>
    intro cw bits
    rw [mktree]
    exact mktreeL_pairwise sa cs 0 cw bits hcs (fun c hc cw2 bits2 => ih c hc cw2 bits2)

/-- Claim C7: for every frequency table with at least two distinct symbols
and every streamAlign at least 1, the code table huffman produces is
prefix-free: no produced codeword, read at its stated bit length, is a
bit-prefix of the codeword of a different symbol. -/
theorem C7_huffman_prefix_free (counts : List (Int × Nat)) (sa : Nat)
    (table : List (Int × Nat × Nat))
    (_hsa : 1 ≤ sa) (_hcount : 2 ≤ counts.length)
    (_hdistinct : counts.Pairwise (fun p q => p.1 ≠ q.1))
    (ht : huffman counts sa = some table) :
    ∀ s1 c1 n1 s2 c2 n2, (s1, c1, n1) ∈ table → (s2, c2, n2) ∈ table → s1 ≠ s2 →
      ¬bitPre c1 n1 c2 n2 := by
  rw [huffman] at ht
  rcases hl : huffLoop (counts.map (fun p => (p.2, HTree.leaf p.1))).length (2 ^ sa)
      (counts.map (fun p => (p.2, HTree.leaf p.1))) with _ | res
  · rw [hl] at ht
    exact absurd ht (by simp)
  · rw [hl] at ht
    rcases res with _ | ⟨p, rest⟩
    · exact absurd ht (by simp)
    · obtain rfl := Option.some.inj ht
      have hleaves : ∀ q ∈ counts.map (fun p => (p.2, HTree.leaf p.1)), GoodTree sa q.2 := by
        intro q hq
        obtain ⟨x, _, rfl⟩ := List.mem_map.mp hq
        exact GoodTree.leaf x.1
      have hgood : GoodTree sa p.2 :=
        huffLoop_good sa _ (2 ^ sa) (le_refl _) _ _ hleaves hl p (by simp)
      have hpw := mktree_pairwise sa hgood 0 0
      intro s1 c1 n1 s2 c2 n2 h1 h2 hne
      have hne2 : ((s1, c1, n1) : Int × Nat × Nat) ≠ (s2, c2, n2) := by
        intro hcon
        exact hne (congrArg Prod.fst hcon)
      exact (hpw.forall npRel_symm h1 h2 hne2).1

/-- Witness for C7 at the two-symbol table {0: 5, 1: 3} with streamAlign 1:
the produced codewords are 0 and 1 at one bit each, and neither is a
bit-prefix of the other. -/
theorem C7_huffman_witness :
    huffman [((0 : Int), 5), (1, 3)] 1 = some [(0, 0, 1), (1, 1, 1)] ∧
    ¬bitPre 0 1 1 1 := by
  have htab : huffman [((0 : Int), 5), (1, 3)] 1 = some [(0, 0, 1), (1, 1, 1)] := by
    rw [huffman]
    simp only [List.map_cons, List.map_nil, List.length_cons, List.length_nil]
    rw [show huffLoop (0 + 1 + 1) (2 ^ 1) [(5, HTree.leaf 0), (3, HTree.leaf 1)]
        = some [(8, HTree.node [HTree.leaf 0, HTree.leaf 1])] from ?_]
    · simp [mktree, mktreeL]
    · rw [huffLoop, if_neg (by simp), show huffStep (2 ^ 1) [(5, HTree.leaf 0), (3, HTree.leaf 1)]
          = [(8, HTree.node [HTree.leaf 0, HTree.leaf 1])] from ?_]
      · rw [huffLoop, if_pos (by simp)]
      · rw [huffStep]
        simp [pySorted, insSorted, wGe]
  refine ⟨htab, ?_⟩
  exact C7_huffman_prefix_free [((0 : Int), 5), (1, 3)] 1 [(0, 0, 1), (1, 1, 1)]
    (by norm_num) (by norm_num) (by simp) htab 0 0 1 1 1 1 (by simp) (by simp) (by norm_num)
